import Mathlib

/-
Verification of the pileup aggregation engine of coolpup.py.

The Python source is shallowly embedded: genomic coordinates and bin
indices are Int, matrix values after nan_to_num are Rat, raw contact
matrix values are Option Rat (none plays the role of NaN), and the
IEEE-754 behaviour of the final normalisation stage is captured by the
inductive type FVal (finite rationals, NaN and the two infinities).
Python floor division on integers is Int.fdiv, Python round is
round-half-to-even, and Python or numpy slices clamp to the array
bounds, with negative indices counting from the end.
-/

/-! ### Small list helpers (numpy slicing and indexing) -/

/-- Value of a rational list at an index, 0 outside the range. -/
def lidx (l : List ℚ) (n : ℕ) : ℚ := l.getD n 0

/-- Entry (i, j) of a matrix stored as a list of rows, 0 outside. -/
def matGet (m : List (List ℚ)) (i j : ℕ) : ℚ := (m.getD i []).getD j 0

/-- Python slice l[lo:hi] for nonnegative bounds: clamps at the ends. -/
def pySliceN (l : List ℚ) (lo hi : ℕ) : List ℚ := (l.take hi).drop lo

/-- Normalise a possibly negative Python slice bound to an absolute index:
negative indices count from the end, and the result is clamped to [0, n]. -/
def pyBound (n : ℕ) (i : ℤ) : ℕ := if i < 0 then ((n : ℤ) + i).toNat else min n i.toNat

/-- Python slice l[lo:hi] with arbitrary integer bounds. -/
def pySliceZ {α : Type} (l : List α) (lo hi : ℤ) : List α :=
  (l.take (pyBound l.length hi)).drop (pyBound l.length lo)

/-- Python round to the nearest integer, halves to even (the semantics of
the builtin round used by the source on float values). -/
def pyRound (q : ℚ) : ℤ :=
  let f := ⌊q⌋
  let r := q - f
  if r < 1/2 then f else if 1/2 < r then f + 1 else if f % 2 = 0 then f else f + 1

/-! ### ExpectedMatrixBuilder: get_expected_matrix (coolpup.py lines 98-115) -/

/-- scipy.linalg.toeplitz: first column c, first row r (entry (0,0) taken
from c); entry (i, j) is c[i-j] below the diagonal and r[j-i] above it. -/
def toeplitzQ (c r : List ℚ) : List (List ℚ) :=
  (List.range c.length).map fun i =>
    (List.range r.length).map fun j =>
      if j ≤ i then lidx c (i - j) else lidx r (j - i)

/-- np.pad(base, (k, 0), mode=reflect): k entries of left reflective padding
(excluding the edge element), meaningful when k does not exceed
base.length - 1, the regime in which numpy performs a single reflection. -/
def padReflect (k : ℕ) (base : List ℚ) : List ℚ :=
  ((List.range k).map fun p => lidx base (k - p)) ++ base

/-- get_expected_matrix from coolpup.py: builds the expected submatrix for
the window with rows spanning left_interval and columns spanning
right_interval, from the 1-D expected curve, via a toeplitz construction
on the slice expected[exp_lo:exp_hi]; when the slice would start below 0
the missing part is padded, reflectively in local mode and with zeros
otherwise. -/
def get_expected_matrix (left_interval right_interval : ℤ × ℤ) (expected : List ℚ)
    (isLocal : Bool) : List (List ℚ) :=
  let lo_left := left_interval.1
  let hi_left := left_interval.2
  let lo_right := right_interval.1
  let hi_right := right_interval.2
  let exp_lo := lo_right - hi_left + 1
  let exp_hi := hi_right - lo_left
  let exp_subset :=
    if exp_lo < 0 then
      let base := pySliceN expected 0 exp_hi.toNat
      if isLocal then padReflect (-exp_lo).toNat base
      else List.replicate (-exp_lo).toNat 0 ++ base
    else
      pySliceN expected exp_lo.toNat exp_hi.toNat
  let i := exp_subset.length / 2
  toeplitzQ ((exp_subset.take (i + 1)).reverse) (exp_subset.drop i)

/-! ### The per-window aggregation loop: _do_pileups (coolpup.py lines 132-199) -/

/-- A window descriptor (stBin, endBin, stPad, endPad) in bin space, the
items yielded by the window generators and consumed by _do_pileups. -/
structure Desc where
  stBin : ℤ
  endBin : ℤ
  stPad : ℤ
  endPad : ℤ
deriving DecidableEq

/-- The swap at the top of the loop body (lines 139-140): if stBin > endBin
the two bins are exchanged together with their pads. -/
def swapDesc (d : Desc) : Desc :=
  if d.endBin < d.stBin then ⟨d.endBin, d.stBin, d.endPad, d.stPad⟩ else d

/-- Configuration of one _do_pileups run; mindist, maxdist and the cooler
bin size are module-level globals in the source. -/
structure PileupConfig where
  binsize : ℕ
  pad : ℕ
  mindist : ℤ
  maxdist : ℤ
  isLocal : Bool
  unbalanced : Bool
  cov_norm : Bool
  rescale : Bool
  rescale_pad : ℚ
  rescale_size : ℕ
deriving DecidableEq

/-- The running accumulator of _do_pileups: the summed map, the count of
aggregated windows, and the two coverage marginal sums. -/
structure PileupState where
  mymap : List (List ℚ)
  n : ℕ
  cov_start : List ℚ
  cov_end : List ℚ
deriving DecidableEq

/-- make_outmap (lines 117-121): the canonical all-zero output map. -/
def make_outmap (pad : ℕ) (rescale : Bool) (rescale_size : ℕ) : List (List ℚ) :=
  if rescale then List.replicate rescale_size (List.replicate rescale_size 0)
  else List.replicate (2 * pad + 1) (List.replicate (2 * pad + 1) 0)

/-- Effective pads of one window (lines 141-146): inflated per-window pads
under rescale, otherwise both overwritten with the configured pad. -/
def effectivePads (cfg : PileupConfig) (stPad endPad : ℤ) : ℤ × ℤ :=
  if cfg.rescale then
    (stPad + pyRound (cfg.rescale_pad * 2 * stPad), endPad + pyRound (cfg.rescale_pad * 2 * endPad))
  else ((cfg.pad : ℤ), (cfg.pad : ℤ))

/-- Extraction intervals of one window (lines 147-150). -/
def extractionBounds (stBin endBin stPad endPad : ℤ) : ℤ × ℤ × ℤ × ℤ :=
  (stBin - stPad, stBin + stPad + 1, endBin - endPad, endBin + endPad + 1)

/-- A sparse contact matrix: entries are Option Rat, none standing for NaN. -/
abbrev CMat : Type := List (List (Option ℚ))

/-- Submatrix data[rlo:rhi, clo:chi] with numpy slice semantics. -/
def matSlice (m : CMat) (rlo rhi clo chi : ℤ) : CMat :=
  (pySliceZ m rlo rhi).map fun r => pySliceZ r clo chi

/-- np.nan_to_num on an extracted block: NaN becomes 0. -/
def nanToNum (m : CMat) : List (List ℚ) :=
  m.map fun r => r.map fun x => x.getD 0

/-- Shape (rows, cols) of a dense block. -/
def mshape (m : List (List ℚ)) : ℕ × ℕ := (m.length, (m.headD []).length)

/-- np.pad(newmap, [(y, 0), (0, x)]) (lines 163-167): y zero rows on top and
x zero columns on the right, bringing a block cut short at a chromosome
edge back to the canonical shape h × w. -/
def padShape (newmap : List (List ℚ)) (h w : ℕ) : List (List ℚ) :=
  let padded := newmap.map fun r => r ++ List.replicate (w - r.length) 0
  List.replicate (h - newmap.length) (List.replicate w 0) ++ padded

/-- Total number of entries of a block (np.size). -/
def msize (m : List (List ℚ)) : ℕ := m.foldl (fun a r => a + r.length) 0

/-- Elementwise sum of two blocks of the same shape. -/
def matAdd (a b : List (List ℚ)) : List (List ℚ) :=
  List.zipWith (fun ra rb => List.zipWith (· + ·) ra rb) a b

/-- Body of the loop of _do_pileups for one window that passed the distance
filter (lines 152-198), taking the post-swap bins and the effective pads.
The zoomArray resampler of mirnylib.numutils is an external collaborator
and is passed in as the functions zoom2 and zoom1.  Values are rationals
(post nan_to_num), so the second nan_to_num applications of the source are
the identity here. -/
def doStepBody (cfg : PileupConfig) (data : CMat) (expectedC : Option (List ℚ))
    (coverage : List ℚ) (zoom2 : List (List ℚ) → ℕ → List (List ℚ))
    (zoom1 : List ℚ → ℕ → List ℚ) (st : PileupState)
    (stBin endBin stPad endPad : ℤ) : PileupState :=
  let b := extractionBounds stBin endBin stPad endPad
  let lo_left := b.1
  let hi_left := b.2.1
  let lo_right := b.2.2.1
  let hi_right := b.2.2.2
  let newmap : List (List ℚ) :=
    match expectedC with
    | none => nanToNum (matSlice data lo_left hi_left lo_right hi_right)
    | some ex => get_expected_matrix (lo_left, hi_left) (lo_right, hi_right) ex cfg.isLocal
  let newmap :=
    if mshape newmap ≠ mshape st.mymap ∧ ¬cfg.rescale then
      padShape newmap st.mymap.length (st.mymap.headD []).length
    else newmap
  let newmap :=
    if cfg.rescale then
      if msize newmap = 0 then make_outmap cfg.pad true cfg.rescale_size
      else zoom2 newmap cfg.rescale_size
    else newmap
  let mymap := matAdd st.mymap newmap
  if cfg.unbalanced ∧ cfg.cov_norm ∧ expectedC = none then
    let ncs := pySliceZ coverage lo_left hi_left
    let nce := pySliceZ coverage lo_right hi_right
    let ncs2 :=
      if cfg.rescale then
        zoom1 (if ncs.length = 0 then List.replicate cfg.rescale_size 0 else ncs) cfg.rescale_size
      else List.replicate (st.mymap.length - ncs.length) 0 ++ ncs
    let nce2 :=
      if cfg.rescale then
        zoom1 (if nce.length = 0 then List.replicate cfg.rescale_size 0 else nce) cfg.rescale_size
      else nce ++ List.replicate ((st.mymap.headD []).length - nce.length) 0
    ⟨mymap, st.n + 1, List.zipWith (· + ·) st.cov_start ncs2, List.zipWith (· + ·) st.cov_end nce2⟩
  else ⟨mymap, st.n + 1, st.cov_start, st.cov_end⟩

/-- One iteration of the loop of _do_pileups (lines 138-198): swap the bins
if needed, then aggregate the window unless the distance filter excludes
it.  The extraction bounds of the source (computed before the filter but
used only inside it) are computed in doStepBody. -/
def doStep (cfg : PileupConfig) (data : CMat) (expectedC : Option (List ℚ))
    (coverage : List ℚ) (zoom2 : List (List ℚ) → ℕ → List (List ℚ))
    (zoom1 : List ℚ → ℕ → List ℚ) (st : PileupState) (d0 : Desc) : PileupState :=
  let d := swapDesc d0
  let p := effectivePads cfg d.stPad d.endPad
  if (cfg.mindist ≤ |d.endBin - d.stBin| * (cfg.binsize : ℤ) ∧
      |d.endBin - d.stBin| * (cfg.binsize : ℤ) < cfg.maxdist) ∨ cfg.isLocal = true then
    doStepBody cfg data expectedC coverage zoom2 zoom1 st d.stBin d.endBin p.1 p.2
  else st

/-- _do_pileups (lines 132-199): fold of the loop body over the stream of
window descriptors, starting from the all-zero accumulator. -/
def do_pileups (cfg : PileupConfig) (data : CMat) (expectedC : Option (List ℚ))
    (coverage : List ℚ) (zoom2 : List (List ℚ) → ℕ → List (List ℚ))
    (zoom1 : List ℚ → ℕ → List ℚ) (mids : List Desc) : PileupState :=
  let mymap := make_outmap cfg.pad cfg.rescale cfg.rescale_size
  mids.foldl (doStep cfg data expectedC coverage zoom2 zoom1)
    ⟨mymap, 0, List.replicate mymap.length 0, List.replicate (mymap.headD []).length 0⟩

/-! ### ControlShifter: controlRegions (coolpup.py lines 88-96)

Randomness is injected: the k-th pair of draws of the generator is rng k,
whose first component stands for np.random.randint(minbin, maxbin) (so the
theorems assume it lies in [minshift // res, maxshift // res)) and whose
second component stands for np.random.random() in [0, 1). -/

/-- One shifted control descriptor: sign = np.sign(random - 0.5) in
{-1, 0, 1}, shift = randint * sign applied to both bins, pads preserved. -/
def shiftOne (d : Desc) (draw : ℕ × ℚ) : Desc :=
  let sign : ℤ := if (1 : ℚ)/2 < draw.2 then 1 else if draw.2 < 1/2 then -1 else 0
  let shift : ℤ := (draw.1 : ℤ) * sign
  ⟨d.stBin + shift, d.endBin + shift, d.stPad, d.endPad⟩

/-- The nested generator loop of controlRegions, with the index of the next
random draw threaded through. -/
def controlRegionsGo (nshifts : ℕ) (rng : ℕ → ℕ × ℚ) : List Desc → ℕ → List Desc
  | [], _ => []
  | d :: rest, k =>
      ((List.range nshifts).map fun i => shiftOne d (rng (k + i))) ++
        controlRegionsGo nshifts rng rest (k + nshifts)

/-- controlRegions: for each incoming descriptor, nshifts shifted control
descriptors.  minbin = minshift // res and maxbin = maxshift // res bound
the randint draw, which the theorems impose on rng. -/
def controlRegions (midcombs : List Desc) (res minshift maxshift nshifts : ℕ)
    (rng : ℕ → ℕ × ℚ) : List Desc :=
  controlRegionsGo nshifts rng midcombs 0

/-! ### WindowEnumerator and the per-chromosome driver pileups
(coolpup.py lines 63-96 and 201-264) -/

/-- An anchor locus (chrom, start, end), as parsed from a UCSC string. -/
structure Anchor where
  chrom : String
  lo : ℤ
  hi : ℤ
deriving DecidableEq

/-- One row of a two-sided (paired) loci table: midpoints and pads in bp. -/
structure PairRow where
  m1 : ℤ
  p1 : ℤ
  m2 : ℤ
  p2 : ℤ
deriving DecidableEq

/-- The per-chromosome loci table handed to pileups: either a one-sided
table of (Mids, Pad) rows (combinations mode) or a two-sided table. -/
inductive MidsTable
  | single (rows : List (ℤ × ℤ))
  | paired (rows : List PairRow)
deriving DecidableEq

/-- Number of rows of the loci table (len(mids)). -/
def MidsTable.len : MidsTable → ℕ
  | single rows => rows.length
  | paired rows => rows.length

/-- Errors raised inside the per-chromosome pipeline: the ValueError of
get_combinations for a local pileup with an anchor, and the anchor
chromosome assertion of pileups. -/
inductive PileupError
  | localWithAnchor
  | anchorChromMismatch
deriving DecidableEq

/-- Observable side effects of a pileups run; reading the chromosome
contact matrix from the cooler is the only one the claims mention. -/
inductive PEvent
  | readMatrix (chrom : String)
deriving DecidableEq

/-- itertools.combinations(l, 2), in generation order. -/
def combPairs {α : Type} : List α → List (α × α)
  | [] => []
  | x :: xs => (xs.map fun y => (x, y)) ++ combPairs xs

/-- get_combinations (lines 63-78).  The source is a generator, so the
ValueError for local together with anchor is raised only when the result
is first consumed; the Except value models exactly that: the error
surfaces where the descriptor list is used. -/
def get_combinations (rows : List (ℤ × ℤ)) (res : ℤ) (isLocal : Bool)
    (anchor : Option Anchor) : Except PileupError (List Desc) :=
  if isLocal = true ∧ anchor.isSome then Except.error PileupError.localWithAnchor
  else if isLocal then
    Except.ok (rows.map fun r => ⟨r.1.fdiv res, r.1.fdiv res, r.2.fdiv res, r.2.fdiv res⟩)
  else
    match anchor with
    | some a =>
        let anchor_bin : ℤ := ⌊((a.lo + a.hi : ℚ)) / 2 / (res : ℚ)⌋
        let anchor_pad : ℤ := pyRound (((a.hi - a.lo : ℚ)) / 2)
        Except.ok (rows.map fun r => ⟨anchor_bin, r.1.fdiv res, anchor_pad, r.2.fdiv res⟩)
    | none =>
        Except.ok ((combPairs rows).map fun pr =>
          ⟨pr.1.1.fdiv res, pr.2.1.fdiv res, pr.1.2.fdiv res, pr.2.2.fdiv res⟩)

/-- get_positions_pairs (lines 80-86): the explicit pairs of a two-sided
table, converted to bin space. -/
def get_positions_pairs (rows : List PairRow) (res : ℤ) : List Desc :=
  rows.map fun r => ⟨r.m1.fdiv res, r.m2.fdiv res, r.p1.fdiv res, r.p2.fdiv res⟩

/-- sparse.triu(data, 2) of get_data (line 129): entries below the second
superdiagonal are zeroed (structural zeros, not NaN). -/
def triu2 (m : CMat) : CMat :=
  m.enum.map fun ir => ir.2.enum.map fun jc =>
    if (ir.1 : ℤ) + 2 ≤ (jc.1 : ℤ) then jc.2 else some 0

/-- get_data (lines 123-130): fetch the chromosome matrix (balanced unless
unbalanced), keeping only the strict upper triangle unless local. -/
def get_data (chrom : String) (fetch : String → Bool → CMat)
    (unbalanced isLocal : Bool) : CMat :=
  let data := fetch chrom (!unbalanced)
  if isLocal then data else triu2 data

/-- NaN-propagating addition on raw matrix values. -/
def optAdd : Option ℚ → Option ℚ → Option ℚ
  | some a, some b => some (a + b)
  | _, _ => none

/-- Column sums (np.sum axis=0) of a raw matrix, NaN propagating. -/
def colSumsO (m : CMat) : List (Option ℚ) :=
  (List.range (m.headD []).length).map fun j =>
    m.foldl (fun acc r => optAdd acc (r.getD j (some 0))) (some 0)

/-- Row sums (np.sum axis=1) of a raw matrix, NaN propagating. -/
def rowSumsO (m : CMat) : List (Option ℚ) :=
  m.map fun r => r.foldl optAdd (some 0)

/-- The coverage marginals of pileups (lines 223-225):
nan_to_num(col sums) + nan_to_num(row sums). -/
def covOf (m : CMat) : List ℚ :=
  List.zipWith (fun a b => a.getD 0 + b.getD 0) (colSumsO m) (rowSumsO m)

/-- pileups (lines 201-264) for one chromosome, returning the list of
observable events next to the outcome.  Fewer than two table rows short
circuit to an all-zero result before anything is read; otherwise the
contact matrix is fetched (unless an expected curve is supplied), the
window stream is generated (wrapped in controlRegions when ctrl) and
folded by _do_pileups.  Generator errors surface only at that fold, after
the matrix read, mirroring the lazy generators of the source. -/
def pileups (chrom : String) (tbl : MidsTable) (fetch : String → Bool → CMat)
    (binsize : ℕ) (pad : ℕ) (ctrl isLocal : Bool) (minshift maxshift nshifts : ℕ)
    (expectedTab : Option (String → List ℚ)) (mindist maxdist : ℤ)
    (anchor : Option Anchor) (unbalanced cov_norm rescale : Bool)
    (rescale_pad : ℚ) (rescale_size : ℕ) (rng : ℕ → ℕ × ℚ)
    (zoom2 : List (List ℚ) → ℕ → List (List ℚ)) (zoom1 : List ℚ → ℕ → List ℚ) :
    List PEvent × Except PileupError PileupState :=
  let outmap := make_outmap pad rescale rescale_size
  if ¬tbl.len > 1 then
    ([], Except.ok ⟨outmap, 0, List.replicate outmap.length 0,
      List.replicate (outmap.headD []).length 0⟩)
  else
    let events : List PEvent :=
      match expectedTab with
      | some _ => []
      | none => [PEvent.readMatrix chrom]
    let dataM : CMat :=
      match expectedTab with
      | some _ => []
      | none => get_data chrom fetch unbalanced isLocal
    let expectedC : Option (List ℚ) :=
      match expectedTab with
      | some ft => some (ft chrom)
      | none => none
    let coverage : List ℚ :=
      if unbalanced ∧ cov_norm ∧ expectedC = none then covOf dataM else []
    if anchor.isSome ∧ anchor.map Anchor.chrom ≠ some chrom then
      (events, Except.error PileupError.anchorChromMismatch)
    else
      let cfg : PileupConfig :=
        ⟨binsize, pad, mindist, maxdist, isLocal, unbalanced, cov_norm,
          rescale, rescale_pad, rescale_size⟩
      let midsE : Except PileupError (List Desc) :=
        match tbl with
        | MidsTable.single rows =>
            (get_combinations rows (binsize : ℤ) isLocal anchor).map fun l =>
              if ctrl then controlRegions l binsize minshift maxshift nshifts rng else l
        | MidsTable.paired rows =>
            Except.ok
              (let l := get_positions_pairs rows (binsize : ℤ)
               if ctrl then controlRegions l binsize minshift maxshift nshifts rng else l)
      (events, midsE.map fun ms => do_pileups cfg dataM expectedC coverage zoom2 zoom1 ms)

/-! ### CLI validation of rescale_size (coolpup.py lines 602-603) -/

/-- The configuration-time check of the rescale size: the source raises
ValueError("Please provide an odd rescale size") exactly when rescale is
set and rescale_size % 3 != 0.  (The help text of the argument demands an
odd number.) -/
def rescale_size_rejected (rescale : Bool) (rescale_size : ℤ) : Bool :=
  rescale && decide (rescale_size % 3 ≠ 0)

/-! ### C5 -/

/-- C5 counterexample: a concrete run with local mode and an anchor on a
two-row table and no expected model.  The run does fail with the
ValueError of get_combinations, but the event trace already contains the
contact-matrix read: the error is raised when the lazy window generator is
first consumed inside _do_pileups, which happens after get_data has
fetched the chromosome matrix, refuting the claim that the error precedes
any contact-matrix read. -/
theorem c5_counterexample :
    (pileups "chr1" (MidsTable.single [(100, 10), (200, 10)]) (fun _ _ => [[some 1]]) 1 1 false
        true 1 2 1 none 0 100 (some ⟨"chr1", 50, 60⟩) false false false 0 41 (fun _ => (1, 0))
        (fun m _ => m) (fun v _ => v)) =
      ([PEvent.readMatrix "chr1"], Except.error PileupError.localWithAnchor) ∧
    [PEvent.readMatrix "chr1"] ≠ ([] : List PEvent) := by
  constructor
  · rfl
  · decide

/-- C5 (amended): when local mode and an anchor are both set (combinations
mode, no expected model, at least two table rows, anchor on the right
chromosome), the run does fail with the ValueError of get_combinations,
but only when the window generator is first consumed, which is after the
chromosome contact matrix has been read: the result is the error together
with a trace already containing the matrix read. -/
theorem c5_local_anchor_after_read (chrom : String) (rows : List (ℤ × ℤ))
    (fetch : String → Bool → CMat) (binsize pad : ℕ) (ctrl : Bool)
    (minshift maxshift nshifts : ℕ) (mindist maxdist : ℤ) (a : Anchor)
    (unbalanced cov_norm rescale : Bool) (rescale_pad : ℚ) (rescale_size : ℕ)
    (rng : ℕ → ℕ × ℚ) (zoom2 : List (List ℚ) → ℕ → List (List ℚ))
    (zoom1 : List ℚ → ℕ → List ℚ)
    (hlen : 1 < rows.length) (hchrom : a.chrom = chrom) :
    pileups chrom (MidsTable.single rows) fetch binsize pad ctrl true minshift maxshift nshifts
      none mindist maxdist (some a) unbalanced cov_norm rescale rescale_pad rescale_size
      rng zoom2 zoom1 =
      ([PEvent.readMatrix chrom], Except.error PileupError.localWithAnchor) := by
  simp only [pileups, MidsTable.len]
  rw [if_neg (by omega : ¬¬(rows.length > 1))]
  have hanch : ¬((some a).isSome = true ∧ (some a).map Anchor.chrom ≠ some chrom) := by
    rintro ⟨-, h2⟩
    exact h2 (by simp [hchrom])
  rw [if_neg hanch]
  rfl

/-- C5 witness: the amended statement at a concrete two-row table. -/
theorem c5_local_anchor_after_read_witness :
    pileups "chr1" (MidsTable.single [(100, 10), (200, 10)]) (fun _ _ => [[some 2]]) 1 1 false
      true 1 2 1 none 0 100 (some ⟨"chr1", 50, 60⟩) false false false 0 41 (fun _ => (1, 0))
      (fun m _ => m) (fun v _ => v) =
      ([PEvent.readMatrix "chr1"], Except.error PileupError.localWithAnchor) :=
  c5_local_anchor_after_read "chr1" [(100, 10), (200, 10)] (fun _ _ => [[some 2]]) 1 1 false
    1 2 1 0 100 ⟨"chr1", 50, 60⟩ false false false 0 41 (fun _ => (1, 0))
    (fun m _ => m) (fun v _ => v) (by norm_num) rfl

/-! ### C10 -/

/-- The head of a replicated list of rows of matching length has that
length, also when the replication count is zero. -/
theorem replicate_headD_length (n : ℕ) (v : List ℚ) (hv : v.length = n) :
    ((List.replicate n v).headD []).length = n := by
  cases n with
  | zero => simp
  | succ j =>
      rw [List.replicate_succ]
      simpa using hv

/-- C10: a chromosome whose loci table has fewer than two rows makes
pileups return the all-zero canonical map with window count 0 and zero
coverage marginals, with an empty event trace (the contact matrix is never
read); this holds in paired mode too, where a chromosome carrying exactly
one explicit locus pair is silently dropped. -/
theorem c10_short_table (chrom : String) (tbl : MidsTable) (fetch : String → Bool → CMat)
    (binsize pad : ℕ) (ctrl isLocal : Bool) (minshift maxshift nshifts : ℕ)
    (expectedTab : Option (String → List ℚ)) (mindist maxdist : ℤ)
    (anchor : Option Anchor) (unbalanced cov_norm rescale : Bool)
    (rescale_pad : ℚ) (rescale_size : ℕ) (rng : ℕ → ℕ × ℚ)
    (zoom2 : List (List ℚ) → ℕ → List (List ℚ)) (zoom1 : List ℚ → ℕ → List ℚ)
    (hlen : tbl.len < 2) :
    pileups chrom tbl fetch binsize pad ctrl isLocal minshift maxshift nshifts expectedTab
      mindist maxdist anchor unbalanced cov_norm rescale rescale_pad rescale_size
      rng zoom2 zoom1 =
      ([], Except.ok
        ⟨List.replicate (if rescale then rescale_size else 2 * pad + 1)
            (List.replicate (if rescale then rescale_size else 2 * pad + 1) 0), 0,
          List.replicate (if rescale then rescale_size else 2 * pad + 1) 0,
          List.replicate (if rescale then rescale_size else 2 * pad + 1) 0⟩) := by
  simp only [pileups]
  rw [if_pos (by omega : ¬tbl.len > 1)]
  have hmake : make_outmap pad rescale rescale_size =
      List.replicate (if rescale then rescale_size else 2 * pad + 1)
        (List.replicate (if rescale then rescale_size else 2 * pad + 1) (0 : ℚ)) := by
    unfold make_outmap
    cases rescale <;> rfl
  rw [hmake]
  simp only [List.length_replicate]
  rw [replicate_headD_length _ _ (List.length_replicate _ _)]

/-- C10 witness: a paired-mode table holding exactly one explicit locus
pair is dropped, yielding the 5 x 5 zero map and empty trace. -/
theorem c10_short_table_witness :
    pileups "chr1" (MidsTable.paired [⟨100, 10, 200, 10⟩]) (fun _ _ => [[some 1]]) 1 2 false
      false 1 2 1 none 0 100 none false false false 0 41 (fun _ => (1, 0))
      (fun m _ => m) (fun v _ => v) =
      ([], Except.ok
        ⟨List.replicate (if false then 41 else 2 * 2 + 1)
            (List.replicate (if false then 41 else 2 * 2 + 1) 0), 0,
          List.replicate (if false then 41 else 2 * 2 + 1) 0,
          List.replicate (if false then 41 else 2 * 2 + 1) 0⟩) :=
  c10_short_table "chr1" (MidsTable.paired [⟨100, 10, 200, 10⟩]) (fun _ _ => [[some 1]]) 1 2
    false false 1 2 1 none 0 100 none false false false 0 41 (fun _ => (1, 0))
    (fun m _ => m) (fun v _ => v) (by norm_num [MidsTable.len])

/-! ### Normalizer: norm_coverage and pileupsWithControl
(coolpup.py lines 273-337)

The final normalisation stage works on numpy float arrays, where 0/0 is
NaN and x/0 is a signed infinity.  FVal captures exactly this value
domain: finite rationals, NaN and the two infinities, with the IEEE-754
rules for the arithmetic the source performs (all zeros are +0). -/

/-- A numpy float value: a finite rational, NaN, or a signed infinity. -/
inductive FVal
  | fin (q : ℚ)
  | nan
  | inf
  | ninf
deriving DecidableEq

/-- np.isnan. -/
def FVal.isNan : FVal → Bool
  | nan => true
  | _ => false

/-- Finite (neither NaN nor an infinity). -/
def FVal.isFinite : FVal → Bool
  | fin _ => true
  | _ => false

/-- Finite and nonzero. -/
def FVal.isFinNonzero : FVal → Bool
  | fin q => decide (q ≠ 0)
  | _ => false

/-- IEEE-754 addition on FVal. -/
def FVal.add : FVal → FVal → FVal
  | nan, _ => nan
  | _, nan => nan
  | inf, ninf => nan
  | ninf, inf => nan
  | inf, _ => inf
  | _, inf => inf
  | ninf, _ => ninf
  | _, ninf => ninf
  | fin a, fin b => fin (a + b)

/-- IEEE-754 multiplication on FVal. -/
def FVal.mul : FVal → FVal → FVal
  | nan, _ => nan
  | _, nan => nan
  | inf, inf => inf
  | inf, ninf => ninf
  | ninf, inf => ninf
  | ninf, ninf => inf
  | inf, fin b => if b = 0 then nan else if 0 < b then inf else ninf
  | fin a, inf => if a = 0 then nan else if 0 < a then inf else ninf
  | ninf, fin b => if b = 0 then nan else if 0 < b then ninf else inf
  | fin a, ninf => if a = 0 then nan else if 0 < a then ninf else inf
  | fin a, fin b => fin (a * b)

/-- IEEE-754 division on FVal (all zeros are +0, hence 0/0 = NaN and
x/0 = a sign-matching infinity). -/
def FVal.div : FVal → FVal → FVal
  | nan, _ => nan
  | _, nan => nan
  | inf, inf => nan
  | inf, ninf => nan
  | ninf, inf => nan
  | ninf, ninf => nan
  | inf, fin b => if 0 ≤ b then inf else ninf
  | ninf, fin b => if 0 ≤ b then ninf else inf
  | fin _, inf => fin 0
  | fin _, ninf => fin 0
  | fin a, fin b =>
      if b = 0 then (if a = 0 then nan else if 0 < a then inf else ninf)
      else fin (a / b)

/-- A float matrix of the normalisation stage. -/
abbrev FMat : Type := List (List FVal)

/-- Elementwise combination of two float matrices. -/
def matZipF (f : FVal → FVal → FVal) (a b : FMat) : FMat :=
  List.zipWith (fun ra rb => List.zipWith f ra rb) a b

/-- Map over the entries of a float matrix. -/
def matMapF (f : FVal → FVal) (m : FMat) : FMat := m.map fun r => r.map f

/-- np.sum(stack, axis=0): elementwise sum of a list of matrices. -/
def matSumF : List FMat → FMat
  | [] => []
  | m :: ms => ms.foldl (matZipF FVal.add) m

/-- Elementwise sum of a list of vectors. -/
def vecSumF : List (List FVal) → List FVal
  | [] => []
  | v :: vs => vs.foldl (List.zipWith FVal.add) v

/-- np.nanmean over the entries of a matrix: mean of the non-NaN values,
NaN when there are none. -/
def nanmeanEntries (xs : List FVal) : FVal :=
  let ys := xs.filter fun x => !x.isNan
  match ys with
  | [] => FVal.nan
  | _ => FVal.div (ys.foldl FVal.add (FVal.fin 0)) (FVal.fin (ys.length : ℚ))

/-- norm_coverage (lines 273-278): divide the map by the outer product of
the coverage marginals normalised to mean 1, then set resulting NaNs
(in particular every 0/0) to 0. -/
def normCoverage (loop : FMat) (cov_start cov_end : List FVal) : FMat :=
  let coverage : FMat := cov_start.map fun a => cov_end.map fun b => FVal.mul a b
  let m := nanmeanEntries coverage.flatten
  let coverage2 := coverage.map fun r => r.map fun x => FVal.div x m
  let loop2 := matZipF FVal.div loop coverage2
  loop2.map fun r => r.map fun x => if x.isNan then FVal.fin 0 else x

/-- The immutable (map, n, cov_start, cov_end) result of one per-chromosome
pileups task, as collected by the worker pool of pileupsWithControl. -/
structure ChromResult where
  mp : FMat
  n : ℕ
  covStart : List FVal
  covEnd : List FVal
deriving DecidableEq

/-- One aggregation pass of pileupsWithControl (lines 296-304 for the
observed pass; lines 314-321, which are line for line the same, for the
control pass): sum the per-chromosome maps and counts; under cov_norm both
marginals handed to norm_coverage are built from the cov_start components
(lines 300-301 and 318-319 both read np.sum(cov_starts, axis=0)); finally
divide by the total window count. -/
def aggStage (rs : List ChromResult) (cov_norm : Bool) : FMat :=
  let loop := matSumF (rs.map ChromResult.mp)
  let n : ℕ := (rs.map ChromResult.n).sum
  let loop :=
    if cov_norm then
      normCoverage loop (vecSumF (rs.map ChromResult.covStart))
        (vecSumF (rs.map ChromResult.covStart))
    else loop
  matMapF (fun x => FVal.div x (FVal.fin (n : ℚ))) loop

/-- The genome-wide combination step of pileupsWithControl (lines 296-337),
parameterised by the collected per-chromosome results of the observed
pass, the control pass, and (when nshifts = 0 and an expected model is
supplied) the expected pass: observed / control when nshifts > 0,
observed / expected otherwise, and the bare observed average when
neither normalisation is configured.  The expected pass applies no
coverage normalisation (lines 331-335). -/
def pileupsWithControl (obs ctrl : List ChromResult) (expRes : Option (List ChromResult))
    (cov_norm : Bool) (nshifts : ℕ) : FMat :=
  let loop := aggStage obs cov_norm
  if 0 < nshifts then matZipF FVal.div loop (aggStage ctrl cov_norm)
  else
    match expRes with
    | some es => matZipF FVal.div loop (aggStage es false)
    | none => loop

/-! ### Helper lemmas -/

theorem lidx_eq_getElem (l : List ℚ) (n : ℕ) (h : n < l.length) : lidx l n = l[n] :=
  List.getD_eq_getElem l 0 h

theorem lidx_range_map (f : ℕ → ℚ) (k t : ℕ) (h : t < k) :
    lidx ((List.range k).map f) t = f t := by
  have hl : t < ((List.range k).map f).length := by simpa using h
  rw [lidx_eq_getElem _ _ hl, List.getElem_map, List.getElem_range]

theorem lidx_pySliceN (l : List ℚ) (lo hi p : ℕ) (hp : lo + p < hi) (hh : hi ≤ l.length) :
    lidx (pySliceN l lo hi) p = lidx l (lo + p) := by
  have hlen : (pySliceN l lo hi).length = hi - lo := by
    simp [pySliceN, List.length_drop, List.length_take]
    omega
  have hpl : p < (pySliceN l lo hi).length := by omega
  have hlp : lo + p < l.length := by omega
  rw [lidx_eq_getElem _ _ hpl, lidx_eq_getElem _ _ hlp]
  simp only [pySliceN]
  rw [List.getElem_drop, List.getElem_take]

theorem pySliceN_length (l : List ℚ) (lo hi : ℕ) (hh : hi ≤ l.length) :
    (pySliceN l lo hi).length = hi - lo := by
  simp [pySliceN, List.length_drop, List.length_take]
  omega

/-- Entry (a, b) of the toeplitz matrix of toeplitzQ, for indices in range. -/
theorem toeplitzQ_get (c r : List ℚ) (a b : ℕ) (ha : a < c.length) (hb : b < r.length) :
    matGet (toeplitzQ c r) a b = if b ≤ a then lidx c (a - b) else lidx r (b - a) := by
  unfold matGet toeplitzQ
  have h1 : a < ((List.range c.length).map fun i =>
      (List.range r.length).map fun j =>
        if j ≤ i then lidx c (i - j) else lidx r (j - i)).length := by simpa using ha
  rw [List.getD_eq_getElem _ _ h1, List.getElem_map, List.getElem_range]
  have h2 : b < ((List.range r.length).map fun j =>
      if j ≤ a then lidx c (a - j) else lidx r (j - a)).length := by simpa using hb
  rw [List.getD_eq_getElem _ _ h2, List.getElem_map, List.getElem_range]

/-- The central toeplitz construction of get_expected_matrix: when the
curve slice s has odd length 2m-1, the matrix entry (a, b) reads the slice
at offset m-1+b-a. -/
theorem expMatrix_entry (s : List ℚ) (m : ℕ) (hm : 1 ≤ m) (hlen : s.length = 2 * m - 1)
    (a b : ℕ) (ha : a < m) (hb : b < m) :
    matGet (toeplitzQ ((s.take (s.length / 2 + 1)).reverse) (s.drop (s.length / 2))) a b =
      lidx s (m - 1 + b - a) := by
  have hi : s.length / 2 = m - 1 := by omega
  have hlc : ((s.take (s.length / 2 + 1)).reverse).length = m := by
    simp [List.length_take]
    omega
  have hlr : (s.drop (s.length / 2)).length = m := by
    simp [List.length_drop]
    omega
  rw [toeplitzQ_get _ _ a b (by omega) (by omega)]
  by_cases hba : b ≤ a
  · rw [if_pos hba]
    have hab : a - b < ((s.take (s.length / 2 + 1)).reverse).length := by omega
    rw [lidx_eq_getElem _ _ hab, List.getElem_reverse]
    have htk : (s.take (s.length / 2 + 1)).length - 1 - (a - b) < (s.take (s.length / 2 + 1)).length := by
      simp [List.length_take]; omega
    rw [List.getElem_take]
    have hidx : m - 1 + b - a < s.length := by omega
    rw [lidx_eq_getElem _ _ hidx]
    congr 1
    simp [List.length_take]
    omega
  · rw [if_neg hba]
    have hba2 : b - a < (s.drop (s.length / 2)).length := by omega
    rw [lidx_eq_getElem _ _ hba2, List.getElem_drop]
    have hidx : m - 1 + b - a < s.length := by omega
    rw [lidx_eq_getElem _ _ hidx]
    congr 1
    omega

/-! ### C2 -/

theorem lidx_padReflect_left (k : ℕ) (base : List ℚ) (t : ℕ) (h : t < k) :
    lidx (padReflect k base) t = lidx base (k - t) := by
  unfold padReflect lidx
  rw [List.getD_append _ _ _ _ (by simpa using h)]
  exact lidx_range_map (fun p => lidx base (k - p)) k t h

theorem lidx_padReflect_right (k : ℕ) (base : List ℚ) (t : ℕ) (h : k ≤ t) :
    lidx (padReflect k base) t = lidx base (t - k) := by
  unfold padReflect lidx
  rw [List.getD_append_right _ _ _ _ (by simpa using h)]
  simp

/-- C2 counterexample: left interval (0, 1) (one bin) against right interval
(5, 8) (three bins), with the curve 0..7.  The claim predicts a 1 x 3
matrix whose (0, 0) entry is expectedCurve[|5 - 0|] = 5, but the code
centres its toeplitz construction at len // 2 of a slice of length
m + n - 1, which for intervals of unequal lengths m and n drifts off the
true diagonal: the produced matrix is [[6, 7], [5, 6]] and its (0, 0)
entry is 6. -/
theorem c2_counterexample :
    matGet (get_expected_matrix (0, 1) (5, 8) [0, 1, 2, 3, 4, 5, 6, 7] false) 0 0 ≠
      lidx [0, 1, 2, 3, 4, 5, 6, 7] (((5 : ℤ) + 0) - (0 + 0)).natAbs := by decide

/-- C2 (amended): for a window whose left interval (l1, l2) and right
interval (r1, r2) have the same length m ≥ 1 and an expected curve long
enough to cover the window (r2 - l1 entries), the matrix built by
get_expected_matrix has value expectedCurve[|(r1 + j) - (l1 + i)|] at
offset (i, j), provided the curve slice does not start below index 0
(0 ≤ r1 - l2 + 1), or local mode is on and the overlap is shallow enough
for a single numpy reflection (-(r1 - l2 + 1) < r2 - l1); for unequal
interval lengths, or zero padding of a below-zero slice in non-local mode,
the identity fails (see the counterexample). -/
theorem c2_expected_matrix (l1 l2 r1 r2 : ℤ) (expected : List ℚ) (isLocal : Bool) (m : ℕ)
    (hm : 1 ≤ m) (hL : l2 = l1 + m) (hR : r2 = r1 + m)
    (hlong : (r2 - l1).toNat ≤ expected.length)
    (hcase : 0 ≤ r1 - l2 + 1 ∨ (isLocal = true ∧ r1 - l2 + 1 < 0 ∧ -(r1 - l2 + 1) < r2 - l1))
    (a b : ℕ) (ha : a < m) (hb : b < m) :
    matGet (get_expected_matrix (l1, l2) (r1, r2) expected isLocal) a b =
      lidx expected ((r1 + b) - (l1 + a)).natAbs := by
  simp only [get_expected_matrix]
  rcases hcase with hpos | ⟨hloc, hneg, hrefl⟩
  · rw [if_neg (by omega : ¬(r1 - l2 + 1 < 0))]
    have hslen : (pySliceN expected (r1 - l2 + 1).toNat (r2 - l1).toNat).length = 2 * m - 1 := by
      rw [pySliceN_length _ _ _ hlong]
      omega
    rw [expMatrix_entry _ m hm hslen a b ha hb]
    rw [lidx_pySliceN expected _ _ _ (by omega) hlong]
    congr 1
    omega
  · rw [if_pos hneg, if_pos hloc]
    have hbl : (pySliceN expected 0 (r2 - l1).toNat).length = (r2 - l1).toNat := by
      rw [pySliceN_length _ _ _ hlong]
      omega
    have hslen : (padReflect (-(r1 - l2 + 1)).toNat (pySliceN expected 0 (r2 - l1).toNat)).length =
        2 * m - 1 := by
      unfold padReflect
      rw [List.length_append, List.length_map, List.length_range, hbl]
      omega
    rw [expMatrix_entry _ m hm hslen a b ha hb]
    by_cases htk : m - 1 + b - a < (-(r1 - l2 + 1)).toNat
    · rw [lidx_padReflect_left _ _ _ htk]
      rw [lidx_pySliceN expected 0 (r2 - l1).toNat _ (by omega) hlong]
      congr 1
      omega
    · rw [lidx_padReflect_right _ _ _ (by omega)]
      rw [lidx_pySliceN expected 0 (r2 - l1).toNat _ (by omega) hlong]
      congr 1
      omega

/-- C2 witness: intervals (0, 3) and (10, 13), both of length 3, with the
curve 0..12: entry (1, 2) equals the curve at distance 11. -/
theorem c2_expected_matrix_witness :
    matGet (get_expected_matrix (0, 3) (10, 13)
        [0, 1, 2, 3, 4, 5, 6, 7, 8, 9, 10, 11, 12] false) 1 2 =
      lidx [0, 1, 2, 3, 4, 5, 6, 7, 8, 9, 10, 11, 12] (((10 : ℤ) + 2) - (0 + 1)).natAbs :=
  c2_expected_matrix 0 3 10 13 [0, 1, 2, 3, 4, 5, 6, 7, 8, 9, 10, 11, 12] false 3
    (by norm_num) (by norm_num) (by norm_num) (by norm_num) (Or.inl (by norm_num))
    1 2 (by norm_num) (by norm_num)

/-! ### C6 -/

/-- C6: the claim that configuration validation rejects every even
rescale_size and accepts every odd one is right about the intent (the
option help text demands an odd number) but wrong about the code, which
tests rescale_size % 3 != 0: the even size 6 is accepted and the odd size
5 is rejected. -/
theorem c6_rescale_size_mod3_bug :
    rescale_size_rejected true 6 = false ∧ rescale_size_rejected true 5 = true := by decide

/-! ### C7 -/

/-- After the swap, stBin is at most endBin. -/
theorem swapDesc_le (d : Desc) : (swapDesc d).stBin ≤ (swapDesc d).endBin := by
  unfold swapDesc
  split
  · show d.endBin ≤ d.stBin
    omega
  · omega

/-- Swapping twice is the same as swapping once. -/
theorem swapDesc_idem (d : Desc) : swapDesc (swapDesc d) = swapDesc d := by
  unfold swapDesc
  split
  · simp only
    rw [if_neg (by omega)]
  · rfl

/-- C7: every descriptor entering the aggregation loop is normalised by the
swap at the top of the body: afterwards binStart is at most binEnd, a
descriptor arriving with binStart greater than binEnd has its bins
exchanged together with their pads, an already ordered descriptor is left
alone, and the loop step processes a descriptor exactly as it processes
its normalised form (the swap happens before the extraction intervals are
computed). -/
theorem c7_swap_normalises (d : Desc) :
    (swapDesc d).stBin ≤ (swapDesc d).endBin ∧
    (d.endBin < d.stBin → swapDesc d = ⟨d.endBin, d.stBin, d.endPad, d.stPad⟩) ∧
    (d.stBin ≤ d.endBin → swapDesc d = d) ∧
    ∀ cfg data expectedC coverage zoom2 zoom1 st,
      doStep cfg data expectedC coverage zoom2 zoom1 st (swapDesc d) =
        doStep cfg data expectedC coverage zoom2 zoom1 st d := by
  refine ⟨swapDesc_le d, ?_, ?_, ?_⟩
  · intro h
    unfold swapDesc
    rw [if_pos h]
  · intro h
    unfold swapDesc
    rw [if_neg (by omega)]
  · intro cfg data expectedC coverage zoom2 zoom1 st
    simp only [doStep, swapDesc_idem]

/-- C7 witness: the swap applied to a concrete reversed descriptor. -/
theorem c7_swap_normalises_witness :
    swapDesc ⟨7, 3, 1, 2⟩ = ⟨3, 7, 2, 1⟩ :=
  (c7_swap_normalises ⟨7, 3, 1, 2⟩).2.1 (by decide)

/-! ### C4 -/

theorem controlRegionsGo_length (nshifts : ℕ) (rng : ℕ → ℕ × ℚ) :
    ∀ (ms : List Desc) (k : ℕ),
      (controlRegionsGo nshifts rng ms k).length = ms.length * nshifts := by
  intro ms
  induction ms with
  | nil => intro k; simp [controlRegionsGo]
  | cons d rest ih =>
      intro k
      simp only [controlRegionsGo, List.length_append, List.length_map, List.length_range,
        ih, List.length_cons]
      rw [Nat.succ_mul]
      omega

theorem controlRegionsGo_getD (nshifts : ℕ) (rng : ℕ → ℕ × ℚ) :
    ∀ (ms : List Desc) (k dIdx i : ℕ), dIdx < ms.length → i < nshifts →
      (controlRegionsGo nshifts rng ms k).getD (dIdx * nshifts + i) ⟨0, 0, 0, 0⟩ =
        shiftOne (ms.getD dIdx ⟨0, 0, 0, 0⟩) (rng (k + (dIdx * nshifts + i))) := by
  intro ms
  induction ms with
  | nil => intro k dIdx i h1 h2; simp at h1
  | cons d rest ih =>
      intro k dIdx i h1 h2
      cases dIdx with
      | zero =>
          simp only [controlRegionsGo, Nat.zero_mul, Nat.zero_add]
          rw [List.getD_append _ _ _ _ (by simpa using h2)]
          have hl : i < ((List.range nshifts).map fun j => shiftOne d (rng (k + j))).length := by
            simpa using h2
          rw [List.getD_eq_getElem _ _ hl, List.getElem_map, List.getElem_range]
          simp
      | succ dj =>
          simp only [controlRegionsGo]
          rw [List.getD_append_right _ _ _ _
            (by simp only [List.length_map, List.length_range]; nlinarith)]
          have harith : dj.succ * nshifts + i - ((List.range nshifts).map fun j =>
              shiftOne d (rng (k + j))).length = dj * nshifts + i := by
            simp only [List.length_map, List.length_range, Nat.succ_mul]
            omega
          rw [harith, ih (k + nshifts) dj i (by simpa using h1) h2, List.getD_cons_succ]
          congr 2
          rw [Nat.succ_mul]
          omega

/-- C4 counterexample: with resolution 1, minshift 2 and maxshift 4, the
randint draw is 2 but the uniform variate is exactly 1/2 (a representable
double), so np.sign gives 0 and the emitted control descriptor is the
unshifted input: its shift magnitude 0 lies outside [minbin, maxbin) =
[2, 4), refuting the claim that the shift magnitude of every control descriptor
lies in [minshift // res, maxshift // res). -/
theorem c4_counterexample :
    (controlRegions [⟨10, 20, 1, 2⟩] 1 2 4 1 fun _ => (2, 1/2)) = [⟨10, 20, 1, 2⟩] ∧
    ¬(2 / 1 ≤ (((10 : ℤ) - 10)).natAbs ∧ (((10 : ℤ) - 10)).natAbs < 4 / 1) := by
  have hhalf : ¬((1 : ℚ)/2 < 1/2) := lt_irrefl _
  constructor
  · simp [controlRegions, controlRegionsGo, shiftOne, hhalf]
  · decide

/-- C4 (amended): controlRegions yields exactly nshifts control descriptors
per input descriptor; the control at flat index dIdx * nshifts + i comes
from input dIdx with draw rng (dIdx * nshifts + i), preserves both pads and
shifts both bins by the same signed amount; the shift magnitude lies in
[minshift // res, maxshift // res) whenever the uniform sign variate
differs from exactly 1/2, and the shift is 0 when that variate is exactly
1/2 (np.sign of 0.0 is 0). -/
theorem c4_control_regions (mids : List Desc) (res minshift maxshift nshifts : ℕ)
    (rng : ℕ → ℕ × ℚ)
    (hrand : ∀ k, minshift / res ≤ (rng k).1 ∧ (rng k).1 < maxshift / res) :
    (controlRegions mids res minshift maxshift nshifts rng).length = mids.length * nshifts ∧
    ∀ dIdx i, dIdx < mids.length → i < nshifts →
      ((controlRegions mids res minshift maxshift nshifts rng).getD (dIdx * nshifts + i)
          ⟨0, 0, 0, 0⟩).stPad = (mids.getD dIdx ⟨0, 0, 0, 0⟩).stPad ∧
      ((controlRegions mids res minshift maxshift nshifts rng).getD (dIdx * nshifts + i)
          ⟨0, 0, 0, 0⟩).endPad = (mids.getD dIdx ⟨0, 0, 0, 0⟩).endPad ∧
      ((controlRegions mids res minshift maxshift nshifts rng).getD (dIdx * nshifts + i)
          ⟨0, 0, 0, 0⟩).stBin - (mids.getD dIdx ⟨0, 0, 0, 0⟩).stBin =
        ((controlRegions mids res minshift maxshift nshifts rng).getD (dIdx * nshifts + i)
          ⟨0, 0, 0, 0⟩).endBin - (mids.getD dIdx ⟨0, 0, 0, 0⟩).endBin ∧
      ((rng (dIdx * nshifts + i)).2 ≠ 1/2 →
        minshift / res ≤ (((controlRegions mids res minshift maxshift nshifts rng).getD
            (dIdx * nshifts + i) ⟨0, 0, 0, 0⟩).stBin -
            (mids.getD dIdx ⟨0, 0, 0, 0⟩).stBin).natAbs ∧
        (((controlRegions mids res minshift maxshift nshifts rng).getD
            (dIdx * nshifts + i) ⟨0, 0, 0, 0⟩).stBin -
            (mids.getD dIdx ⟨0, 0, 0, 0⟩).stBin).natAbs < maxshift / res) ∧
      ((rng (dIdx * nshifts + i)).2 = 1/2 →
        ((controlRegions mids res minshift maxshift nshifts rng).getD
            (dIdx * nshifts + i) ⟨0, 0, 0, 0⟩).stBin =
          (mids.getD dIdx ⟨0, 0, 0, 0⟩).stBin) := by
  constructor
  · exact controlRegionsGo_length nshifts rng mids 0
  · intro dIdx i h1 h2
    have hget := controlRegionsGo_getD nshifts rng mids 0 dIdx i h1 h2
    simp only [Nat.zero_add] at hget
    unfold controlRegions
    rw [hget]
    set d := mids.getD dIdx ⟨0, 0, 0, 0⟩ with hd
    set w := rng (dIdx * nshifts + i) with hw
    rcases lt_trichotomy w.2 (1/2 : ℚ) with hlt | heq | hgt
    · have hs : shiftOne d w = ⟨d.stBin - w.1, d.endBin - w.1, d.stPad, d.endPad⟩ := by
        unfold shiftOne
        rw [if_neg (by linarith), if_pos hlt]
        simp
        constructor <;> ring
      rw [hs]
      refine ⟨rfl, rfl, by simp, ?_, ?_⟩
      · intro _
        have := hrand (dIdx * nshifts + i)
        rw [← hw] at this
        simp
        omega
      · intro habs
        exact absurd habs (by linarith)
    · have hs : shiftOne d w = ⟨d.stBin, d.endBin, d.stPad, d.endPad⟩ := by
        unfold shiftOne
        rw [if_neg (by linarith), if_neg (by linarith)]
        simp
      rw [hs]
      refine ⟨rfl, rfl, by simp, ?_, ?_⟩
      · intro habs
        exact absurd heq habs
      · intro _
        rfl
    · have hs : shiftOne d w = ⟨d.stBin + w.1, d.endBin + w.1, d.stPad, d.endPad⟩ := by
        unfold shiftOne
        rw [if_pos hgt]
        simp
      rw [hs]
      refine ⟨rfl, rfl, by simp, ?_, ?_⟩
      · intro _
        have := hrand (dIdx * nshifts + i)
        rw [← hw] at this
        simp
        omega
      · intro habs
        exact absurd habs (by linarith)

/-- C4 witness: one input descriptor, one shift, a draw of magnitude 2. -/
theorem c4_control_regions_witness :
    (controlRegions [⟨10, 20, 1, 2⟩] 1 2 4 1 fun _ => (2, 3/4)).length = 1 * 1 :=
  (c4_control_regions [⟨10, 20, 1, 2⟩] 1 2 4 1 (fun _ => (2, 3/4))
    (fun _ => ⟨by norm_num, by norm_num⟩)).1

/-! ### C3 -/

/-- The swap leaves the absolute bin distance of a descriptor unchanged. -/
theorem swapDesc_absdiff (d : Desc) :
    |(swapDesc d).endBin - (swapDesc d).stBin| = |d.endBin - d.stBin| := by
  unfold swapDesc
  split
  · show |d.stBin - d.endBin| = _
    exact abs_sub_comm _ _
  · rfl

/-- A window whose genomic distance falls outside [mindist, maxdist) is
skipped entirely when not in local mode: the loop step returns the
accumulator unchanged. -/
theorem doStep_skip (cfg : PileupConfig) (data : CMat) (expectedC : Option (List ℚ))
    (coverage : List ℚ) (zoom2 : List (List ℚ) → ℕ → List (List ℚ))
    (zoom1 : List ℚ → ℕ → List ℚ) (d : Desc)
    (hloc : cfg.isLocal = false)
    (hdist : ¬(cfg.mindist ≤ |d.endBin - d.stBin| * (cfg.binsize : ℤ) ∧
        |d.endBin - d.stBin| * (cfg.binsize : ℤ) < cfg.maxdist)) :
    ∀ st : PileupState, doStep cfg data expectedC coverage zoom2 zoom1 st d = st := by
  intro st
  simp only [doStep]
  rw [swapDesc_absdiff, if_neg]
  rintro (h | h)
  · exact hdist h
  · rw [hloc] at h
    exact Bool.false_ne_true h

/-- C3: in the aggregation loop a window contributes to the running sum,
the window count and the coverage marginals only if local mode is active
or mindist ≤ |binEnd - binStart| * binsize < maxdist; a window excluded by
this filter leaves the loop state exactly as it was, and deleting it from
the stream does not change the result of _do_pileups. -/
theorem c3_distance_filter (cfg : PileupConfig) (data : CMat) (expectedC : Option (List ℚ))
    (coverage : List ℚ) (zoom2 : List (List ℚ) → ℕ → List (List ℚ))
    (zoom1 : List ℚ → ℕ → List ℚ) (st : PileupState) (d : Desc)
    (hloc : cfg.isLocal = false)
    (hdist : ¬(cfg.mindist ≤ |d.endBin - d.stBin| * (cfg.binsize : ℤ) ∧
        |d.endBin - d.stBin| * (cfg.binsize : ℤ) < cfg.maxdist)) :
    doStep cfg data expectedC coverage zoom2 zoom1 st d = st ∧
    ∀ ms1 ms2 : List Desc,
      do_pileups cfg data expectedC coverage zoom2 zoom1 (ms1 ++ d :: ms2) =
        do_pileups cfg data expectedC coverage zoom2 zoom1 (ms1 ++ ms2) := by
  refine ⟨doStep_skip cfg data expectedC coverage zoom2 zoom1 d hloc hdist st, ?_⟩
  intro ms1 ms2
  unfold do_pileups
  rw [List.foldl_append, List.foldl_append, List.foldl_cons,
    doStep_skip cfg data expectedC coverage zoom2 zoom1 d hloc hdist]

/-- C3 witness: with mindist 5, maxdist 10 and bin size 1, the adjacent-bin
window (0, 1) is skipped and a concrete nonzero accumulator is preserved. -/
theorem c3_distance_filter_witness :
    doStep ⟨1, 1, 5, 10, false, false, false, false, 0, 41⟩ [] none []
      (fun m _ => m) (fun v _ => v) ⟨[[1]], 3, [1], [2]⟩ ⟨0, 1, 0, 0⟩ = ⟨[[1]], 3, [1], [2]⟩ :=
  (c3_distance_filter ⟨1, 1, 5, 10, false, false, false, false, 0, 41⟩ [] none []
    (fun m _ => m) (fun v _ => v) ⟨[[1]], 3, [1], [2]⟩ ⟨0, 1, 0, 0⟩ rfl (by decide)).1

/-! ### C8 -/

/-- The post-swap bins depend only on the incoming bins, not on the pads. -/
theorem swapDesc_stBin (d : Desc) :
    (swapDesc d).stBin = if d.endBin < d.stBin then d.endBin else d.stBin := by
  unfold swapDesc
  split <;> rfl

/-- The post-swap end bin depends only on the incoming bins. -/
theorem swapDesc_endBin (d : Desc) :
    (swapDesc d).endBin = if d.endBin < d.stBin then d.stBin else d.endBin := by
  unfold swapDesc
  split <;> rfl

/-- Without rescale, the loop step is a function of the descriptor bins
alone: the per-window pads are overwritten by the configured pad. -/
theorem doStep_pads_irrelevant (cfg : PileupConfig) (data : CMat)
    (expectedC : Option (List ℚ)) (coverage : List ℚ)
    (zoom2 : List (List ℚ) → ℕ → List (List ℚ)) (zoom1 : List ℚ → ℕ → List ℚ)
    (st : PileupState) (d1 d2 : Desc) (hres : cfg.rescale = false)
    (hs : d1.stBin = d2.stBin) (he : d1.endBin = d2.endBin) :
    doStep cfg data expectedC coverage zoom2 zoom1 st d1 =
      doStep cfg data expectedC coverage zoom2 zoom1 st d2 := by
  have hpad : ∀ p1 p2 : ℤ, effectivePads cfg p1 p2 = ((cfg.pad : ℤ), (cfg.pad : ℤ)) := by
    intro p1 p2
    unfold effectivePads
    rw [hres]
    simp
  have h1 : (swapDesc d1).stBin = (swapDesc d2).stBin := by
    rw [swapDesc_stBin, swapDesc_stBin, hs, he]
  have h2 : (swapDesc d1).endBin = (swapDesc d2).endBin := by
    rw [swapDesc_endBin, swapDesc_endBin, hs, he]
  simp only [doStep]
  rw [hpad, hpad, h1, h2]

/-- C8: with rescale disabled, the loop overwrites both per-window pads with
the configured pad, the extraction window is
[binStart - pad, binStart + pad + 1) x [binEnd - pad, binEnd + pad + 1),
and consequently two descriptor streams that agree on all bins (pads
arbitrary) produce identical maps, counts and coverage marginals. -/
theorem c8_pads_overwritten (cfg : PileupConfig) (hres : cfg.rescale = false) :
    (∀ p1 p2 : ℤ, effectivePads cfg p1 p2 = ((cfg.pad : ℤ), (cfg.pad : ℤ))) ∧
    (∀ s e : ℤ, extractionBounds s e (cfg.pad : ℤ) (cfg.pad : ℤ) =
      (s - cfg.pad, s + cfg.pad + 1, e - cfg.pad, e + cfg.pad + 1)) ∧
    (∀ data expectedC coverage zoom2 zoom1 (st : PileupState) (d1 d2 : Desc),
      d1.stBin = d2.stBin → d1.endBin = d2.endBin →
        doStep cfg data expectedC coverage zoom2 zoom1 st d1 =
          doStep cfg data expectedC coverage zoom2 zoom1 st d2) ∧
    (∀ data expectedC coverage zoom2 zoom1 (ms1 ms2 : List Desc),
      List.Forall₂ (fun a b : Desc => a.stBin = b.stBin ∧ a.endBin = b.endBin) ms1 ms2 →
        do_pileups cfg data expectedC coverage zoom2 zoom1 ms1 =
          do_pileups cfg data expectedC coverage zoom2 zoom1 ms2) := by
  refine ⟨?_, ?_, ?_, ?_⟩
  · intro p1 p2
    unfold effectivePads
    rw [hres]
    simp
  · intro s e
    rfl
  · intro data expectedC coverage zoom2 zoom1 st d1 d2 hsb heb
    exact doStep_pads_irrelevant cfg data expectedC coverage zoom2 zoom1 st d1 d2 hres hsb heb
  · intro data expectedC coverage zoom2 zoom1 ms1 ms2 hall
    have hfold : ∀ (l1 l2 : List Desc),
        List.Forall₂ (fun a b : Desc => a.stBin = b.stBin ∧ a.endBin = b.endBin) l1 l2 →
        ∀ s0 : PileupState,
          List.foldl (doStep cfg data expectedC coverage zoom2 zoom1) s0 l1 =
            List.foldl (doStep cfg data expectedC coverage zoom2 zoom1) s0 l2 := by
      intro l1 l2 h12
      induction h12 with
      | nil => intro s0; rfl
      | cons hd tl ih =>
          intro s0
          simp only [List.foldl_cons]
          rename_i a b as bs
          rw [doStep_pads_irrelevant cfg data expectedC coverage zoom2 zoom1 s0 a b hres hd.1 hd.2]
          exact ih (doStep cfg data expectedC coverage zoom2 zoom1 s0 b)
    exact hfold ms1 ms2 hall _

/-- C8 witness: two descriptors sharing bins (3, 9) but with different pads
are processed identically by the loop step. -/
theorem c8_pads_overwritten_witness :
    doStep ⟨1, 1, 0, 100, false, false, false, false, 0, 41⟩ [] none []
      (fun m _ => m) (fun v _ => v) ⟨[], 0, [], []⟩ ⟨3, 9, 7, 8⟩ =
    doStep ⟨1, 1, 0, 100, false, false, false, false, 0, 41⟩ [] none []
      (fun m _ => m) (fun v _ => v) ⟨[], 0, [], []⟩ ⟨3, 9, 0, 2⟩ :=
  (c8_pads_overwritten ⟨1, 1, 0, 100, false, false, false, false, 0, 41⟩ rfl).2.2.1
    [] none [] (fun m _ => m) (fun v _ => v) ⟨[], 0, [], []⟩ ⟨3, 9, 7, 8⟩ ⟨3, 9, 0, 2⟩ rfl rfl

/-! ### C1 -/

theorem exists_of_mem_zipWith {α β γ : Type} {f : α → β → γ} :
    ∀ {as : List α} {bs : List β} {x : γ}, x ∈ List.zipWith f as bs →
      ∃ a ∈ as, ∃ b ∈ bs, x = f a b := by
  intro as
  induction as with
  | nil =>
      intro bs x h
      simp at h
  | cons a as ih =>
      intro bs x h
      cases bs with
      | nil => simp at h
      | cons b bs =>
          rw [List.zipWith_cons_cons] at h
          rcases List.mem_cons.mp h with h1 | h2
          · exact ⟨a, List.mem_cons_self _ _, b, List.mem_cons_self _ _, h1⟩
          · rcases ih h2 with ⟨a2, ha2, b2, hb2, hx⟩
            exact ⟨a2, List.mem_cons_of_mem _ ha2, b2, List.mem_cons_of_mem _ hb2, hx⟩

/-- Division of finite float values by a nonzero finite value is finite. -/
theorem fdiv_fin (a b : ℚ) (hb : b ≠ 0) :
    FVal.div (FVal.fin a) (FVal.fin b) = FVal.fin (a / b) := by
  simp only [FVal.div]
  rw [if_neg hb]

/-- C1 counterexample: two accumulated single-chromosome results whose maps
are all zero (one aggregated window each, as happens when the sparse
matrix is empty in the extracted regions).  The observed pass gives 0, the
control pass gives 0, and the final division 0/0 is NaN: the final
enrichment map contains NaN, refuting the claim that every division in
the normaliser maps 0/0 to 0 and that the output is NaN-free.  Only
norm_coverage zeroes its NaNs; the observed/control division (and the
observed/expected one) has no such guard. -/
theorem c1_counterexample :
    FVal.nan ∈ (pileupsWithControl [⟨[[FVal.fin 0]], 1, [], []⟩]
        [⟨[[FVal.fin 0]], 1, [], []⟩] none false 1).flatten := by
  have h0 : aggStage [⟨[[FVal.fin 0]], 1, [], []⟩] false = [[FVal.fin 0]] := by
    norm_num [aggStage, matSumF, matMapF, FVal.div]
  have hres : pileupsWithControl [⟨[[FVal.fin 0]], 1, [], []⟩]
      [⟨[[FVal.fin 0]], 1, [], []⟩] none false 1 = [[FVal.nan]] := by
    simp only [pileupsWithControl, if_pos Nat.zero_lt_one, h0]
    simp [matZipF, FVal.div]
  rw [hres]
  simp

/-- C1 (amended): only the coverage-normalization division is guarded:
norm_coverage zeroes every NaN after dividing (so its 0/0 become 0 and its
output is NaN-free), while the observed/control and observed/expected
divisions follow IEEE semantics and the final map is finite (no NaN, no
infinity) provided the averaged observed map is finite and the averaged
control (respectively expected) map is finite and nonzero entrywise;
without that proviso 0/0 yields NaN in the final map (see the
counterexample). -/
theorem c1_division_guards :
    (∀ (loop : FMat) (cs ce : List FVal) (row : List FVal) (x : FVal),
        row ∈ normCoverage loop cs ce → x ∈ row → x.isNan = false) ∧
    (∀ (obs ctrl : List ChromResult) (cn : Bool) (nshifts : ℕ), 0 < nshifts →
        (∀ r ∈ aggStage obs cn, ∀ x ∈ r, x.isFinite = true) →
        (∀ r ∈ aggStage ctrl cn, ∀ x ∈ r, x.isFinNonzero = true) →
        ∀ r ∈ pileupsWithControl obs ctrl none cn nshifts, ∀ x ∈ r, x.isFinite = true) ∧
    (∀ (obs es : List ChromResult) (cn : Bool),
        (∀ r ∈ aggStage obs cn, ∀ x ∈ r, x.isFinite = true) →
        (∀ r ∈ aggStage es false, ∀ x ∈ r, x.isFinNonzero = true) →
        ∀ r ∈ pileupsWithControl obs [] (some es) cn 0, ∀ x ∈ r, x.isFinite = true) := by
  refine ⟨?_, ?_, ?_⟩
  · intro loop cs ce row x hrow hx
    simp only [normCoverage] at hrow
    rcases List.mem_map.mp hrow with ⟨r0, hr0, hrw⟩
    subst hrw
    rcases List.mem_map.mp hx with ⟨x0, hx0, hxw⟩
    subst hxw
    by_cases h : x0.isNan = true
    · rw [if_pos h]
      rfl
    · rw [if_neg h]
      exact Bool.not_eq_true _ |>.mp h
  · intro obs ctrl cn nshifts hns hobs hctrl r hr x hx
    simp only [pileupsWithControl] at hr
    rw [if_pos hns] at hr
    rcases exists_of_mem_zipWith hr with ⟨ra, hra, rb, hrb, hrw⟩
    subst hrw
    rcases exists_of_mem_zipWith hx with ⟨xa, hxa, xb, hxb, hxw⟩
    subst hxw
    have h1 := hobs ra hra xa hxa
    have h2 := hctrl rb hrb xb hxb
    cases xa with
    | fin qa =>
        cases xb with
        | fin qb =>
            have hqb : qb ≠ 0 := by simpa [FVal.isFinNonzero] using h2
            rw [fdiv_fin qa qb hqb]
            rfl
        | nan => simp [FVal.isFinNonzero] at h2
        | inf => simp [FVal.isFinNonzero] at h2
        | ninf => simp [FVal.isFinNonzero] at h2
    | nan => simp [FVal.isFinite] at h1
    | inf => simp [FVal.isFinite] at h1
    | ninf => simp [FVal.isFinite] at h1
  · intro obs es cn hobs hes r hr x hx
    simp only [pileupsWithControl] at hr
    rw [if_neg (lt_irrefl 0)] at hr
    rcases exists_of_mem_zipWith hr with ⟨ra, hra, rb, hrb, hrw⟩
    subst hrw
    rcases exists_of_mem_zipWith hx with ⟨xa, hxa, xb, hxb, hxw⟩
    subst hxw
    have h1 := hobs ra hra xa hxa
    have h2 := hes rb hrb xb hxb
    cases xa with
    | fin qa =>
        cases xb with
        | fin qb =>
            have hqb : qb ≠ 0 := by simpa [FVal.isFinNonzero] using h2
            rw [fdiv_fin qa qb hqb]
            rfl
        | nan => simp [FVal.isFinNonzero] at h2
        | inf => simp [FVal.isFinNonzero] at h2
        | ninf => simp [FVal.isFinNonzero] at h2
    | nan => simp [FVal.isFinite] at h1
    | inf => simp [FVal.isFinite] at h1
    | ninf => simp [FVal.isFinite] at h1

/-- C1 witness: a finite observed average divided by a finite nonzero
control average is finite at the centre entry. -/
theorem c1_division_guards_witness :
    (((pileupsWithControl [⟨[[FVal.fin 4]], 1, [], []⟩] [⟨[[FVal.fin 2]], 1, [], []⟩]
        none false 1).getD 0 []).getD 0 FVal.nan).isFinite = true := by
  have h1 : aggStage [⟨[[FVal.fin 4]], 1, [], []⟩] false = [[FVal.fin 4]] := by
    norm_num [aggStage, matSumF, matMapF, FVal.div]
  have h2 : aggStage [⟨[[FVal.fin 2]], 1, [], []⟩] false = [[FVal.fin 2]] := by
    norm_num [aggStage, matSumF, matMapF, FVal.div]
  have hobs : ∀ r ∈ aggStage [⟨[[FVal.fin 4]], 1, [], []⟩] false,
      ∀ x ∈ r, x.isFinite = true := by
    rw [h1]
    intro r hr x hx
    simp only [List.mem_singleton] at hr
    subst hr
    simp only [List.mem_singleton] at hx
    subst hx
    rfl
  have hctrl : ∀ r ∈ aggStage [⟨[[FVal.fin 2]], 1, [], []⟩] false,
      ∀ x ∈ r, x.isFinNonzero = true := by
    rw [h2]
    intro r hr x hx
    simp only [List.mem_singleton] at hr
    subst hr
    simp only [List.mem_singleton] at hx
    subst hx
    norm_num [FVal.isFinNonzero]
  have hres : pileupsWithControl [⟨[[FVal.fin 4]], 1, [], []⟩] [⟨[[FVal.fin 2]], 1, [], []⟩]
      none false 1 = [[FVal.div (FVal.fin 4) (FVal.fin 2)]] := by
    simp only [pileupsWithControl, if_pos Nat.zero_lt_one, h1, h2]
    simp [matZipF]
  refine c1_division_guards.2.1 _ _ false 1 Nat.zero_lt_one hobs hctrl
    ((pileupsWithControl [⟨[[FVal.fin 4]], 1, [], []⟩] [⟨[[FVal.fin 2]], 1, [], []⟩]
      none false 1).getD 0 []) ?_ _ ?_
  · rw [hres]
    simp
  · rw [hres]
    simp

/-! ### C9 -/

/-- The components of a per-chromosome result actually read by the
genome-wide combination stage: the map, the count and cov_start. -/
abbrev sameUsedParts (a b : ChromResult) : Prop :=
  a.mp = b.mp ∧ a.n = b.n ∧ a.covStart = b.covStart

/-- Mapping a function that respects a relation over related lists gives
equal images. -/
theorem forall2_map_eq {α β : Type} (g : α → β) (R : α → α → Prop)
    (hg : ∀ a b, R a b → g a = g b) :
    ∀ {l1 l2 : List α}, List.Forall₂ R l1 l2 → l1.map g = l2.map g := by
  intro l1 l2 h
  induction h with
  | nil => rfl
  | cons hd tl ih => simp only [List.map_cons, hg _ _ hd, ih]

/-- aggStage reads only the maps, counts and cov_start components. -/
theorem aggStage_congr (rs rs2 : List ChromResult) (cn : Bool)
    (h : List.Forall₂ sameUsedParts rs rs2) : aggStage rs cn = aggStage rs2 cn := by
  have hmp := forall2_map_eq ChromResult.mp sameUsedParts (fun a b hab => hab.1) h
  have hn := forall2_map_eq ChromResult.n sameUsedParts (fun a b hab => hab.2.1) h
  have hcs := forall2_map_eq ChromResult.covStart sameUsedParts (fun a b hab => hab.2.2) h
  unfold aggStage
  rw [hmp, hn, hcs]

/-- C9: in the coverage-normalised aggregation both marginals handed to
norm_coverage equal the summed per-chromosome cov_start arrays (the
cov_end sums are never formed), and consequently the final map of
pileupsWithControl is unchanged under arbitrary replacement of every
cov_end component, in the observed pass and the control pass alike (and in
the expected pass). -/
theorem c9_cov_end_unused :
    (∀ rs : List ChromResult, aggStage rs true =
      matMapF (fun x => FVal.div x (FVal.fin ((rs.map ChromResult.n).sum : ℚ)))
        (normCoverage (matSumF (rs.map ChromResult.mp))
          (vecSumF (rs.map ChromResult.covStart)) (vecSumF (rs.map ChromResult.covStart)))) ∧
    (∀ (obs obs2 ctrl ctrl2 es es2 : List ChromResult) (cn : Bool) (nshifts : ℕ),
      List.Forall₂ sameUsedParts obs obs2 → List.Forall₂ sameUsedParts ctrl ctrl2 →
      List.Forall₂ sameUsedParts es es2 →
      pileupsWithControl obs ctrl none cn nshifts =
        pileupsWithControl obs2 ctrl2 none cn nshifts ∧
      pileupsWithControl obs ctrl (some es) cn nshifts =
        pileupsWithControl obs2 ctrl2 (some es2) cn nshifts) := by
  constructor
  · intro rs
    rfl
  · intro obs obs2 ctrl ctrl2 es es2 cn nshifts h1 h2 h3
    have e1 := aggStage_congr obs obs2 cn h1
    have e2 := aggStage_congr ctrl ctrl2 cn h2
    have e3 := aggStage_congr es es2 false h3
    constructor
    · simp only [pileupsWithControl, e1, e2]
    · simp only [pileupsWithControl, e1, e2, e3]

/-- C9 witness: replacing every cov_end array leaves the coverage-normalised
result untouched. -/
theorem c9_cov_end_unused_witness :
    pileupsWithControl [⟨[[FVal.fin 1]], 1, [FVal.fin 2], [FVal.fin 3]⟩]
        [⟨[[FVal.fin 1]], 1, [FVal.fin 2], [FVal.fin 5]⟩] none true 1 =
      pileupsWithControl [⟨[[FVal.fin 1]], 1, [FVal.fin 2], [FVal.fin 7]⟩]
        [⟨[[FVal.fin 1]], 1, [FVal.fin 2], [FVal.fin 9]⟩] none true 1 :=
  ((c9_cov_end_unused.2 _ _ _ _ [] [] true 1
    (List.Forall₂.cons ⟨rfl, rfl, rfl⟩ List.Forall₂.nil)
    (List.Forall₂.cons ⟨rfl, rfl, rfl⟩ List.Forall₂.nil)
    List.Forall₂.nil).1)
